import Mathlib

/-!
Verification of the `bst` package: a plain unbalanced binary search tree with
a sentinel node (a node whose `Parent` points to itself) anchoring the root in
its `lo` child slot.

The Go source is embedded twice, at two levels of detail:

1. An inductive-tree embedding (`BTree`) of the downward-recursive operations
   `Insert`, `Get`, `Visit`, and the node tests driving `Check` and `Keys`.
   These source functions only ever walk child pointers downwards (the
   `Parent` field is written by `Insert` but read only through `IsSentinel`,
   which the sentinel wrapper of the embedding accounts for), so the pointer
   structure they traverse is exactly an inductive tree.  Keys and values are
   embedded at the test harness's instantiation: machine integers ordered
   by `<` (`iKey` / `int` in the source tests), modelled as `Int`.

2. A pointer-arena embedding (`Heap`, below) in which every node is a heap
   cell with explicit `parent` and child index fields, the sentinel is the
   cell whose `parent` index is its own, and `nil` pointers are `none`.
   `Delete`, `which`, and the parent-link invariants are settled there,
   because their behaviour depends on the mutable `Parent` pointers.

3. A zipper embedding of `next`/`Next` (parent ascent), where the chain of
   `Parent` pointers of a node inside an insert-built tree is represented by
   the list of frames from the node up to the sentinel.

The `Height` field of the source struct is inert bookkeeping: it is written
only by `calcHeight`, which none of the operations under scrutiny call, and
read by nothing that the claims mention; it is therefore omitted.
-/

/-! ## Part 1: inductive embedding of the downward operations -/

/-- A (sub)tree hanging off a child slot: the Go `*BasicBST` pointer that is
either `nil` or a node with key, value and two child slots.  The sentinel is
not a `BTree`; the whole container is modelled by the sentinel's `lo` slot
(`NewBasic` creates the sentinel with an empty `lo` slot, so the empty
container is `BTree.nil`). -/
inductive BTree where
  | nil : BTree
  | node (key : Int) (value : Int) (lo : BTree) (hi : BTree) : BTree
deriving DecidableEq, Repr

namespace BTree

/-- Source `Get` (basic.go / part_000, `func (n *BasicBST) Get`): `nil`
returns `nil`; descend `lo` when `k.Less(n.Key)`, `hi` when `n.Key.Less(k)`,
otherwise return the node itself.  The sentinel case of the source
(`n.IsSentinel() || k.Less(n.Key)` descending `lo`) is the wrapper: `Get` on
the whole container is `get` of the sentinel's `lo` slot. -/
def get : BTree → Int → Option BTree
  | .nil, _ => none
  | .node key value lo hi, k =>
    if k < key then lo.get k
    else if key < k then hi.get k
    else some (.node key value lo hi)

/-- The `Value` field of a node (`none` for a `nil` pointer). -/
def value? : BTree → Option Int
  | .nil => none
  | .node _ v _ _ => some v

/-- The `Key` field of a node (`none` for a `nil` pointer). -/
def key? : BTree → Option Int
  | .nil => none
  | .node k _ _ _ => some k

/-- `Get` followed by reading the found node's `Value`. -/
def getValue? (t : BTree) (k : Int) : Option Int :=
  (t.get k).bind value?

/-- Source `Insert` (`func (n *BasicBST) Insert`): descend by comparison;
the source's explicit empty-slot check (`if n.Child[lo] == nil` allocate the
node there, else recurse) is the `nil` case here — allocating in an empty
slot is inserting into the empty subtree.  Equal keys overwrite the value in
place.  The sentinel always takes the `lo` branch, so `Insert` on the whole
container is `insert` of the sentinel's `lo` slot. -/
def insert : BTree → Int → Int → BTree
  | .nil, k, v => .node k v .nil .nil
  | .node key value lo hi, k, v =>
    if k < key then .node key value (lo.insert k v) hi
    else if key < k then .node key value lo (hi.insert k v)
    else .node key v lo hi

/-- The nodes handed to `Visit`'s callback, in visiting order (left subtree,
the node itself, right subtree); the sentinel itself is skipped by the source
(`if n.IsSentinel() { return n.Child[lo].Visit(f) }`), which the wrapper
convention already accounts for. -/
def visitNodes : BTree → List BTree
  | .nil => []
  | .node key value lo hi =>
    lo.visitNodes ++ (.node key value lo hi) :: hi.visitNodes

/-- The key/value pairs in visiting order. -/
def inorder : BTree → List (Int × Int)
  | .nil => []
  | .node k v lo hi => lo.inorder ++ (k, v) :: hi.inorder

/-- The keys in visiting order: what the `Keys` channel delivers when the
consumer drains it without cancelling (each visited node's `Key` is handed
off in visiting order). -/
def keysList (t : BTree) : List Int := t.inorder.map Prod.fst

/-- Source `Check`'s `badLo` test at a node: `n.Child[lo] != nil &&
!n.Child[lo].Key.Less(n.Key)`. -/
def badLo : BTree → Bool
  | .node k _ (.node lk _ _ _) _ => ! decide (lk < k)
  | _ => false

/-- Source `Check`'s `badHi` test at a node: `n.Child[hi] != nil &&
!n.Key.Less(n.Child[hi].Key)`. -/
def badHi : BTree → Bool
  | .node k _ _ (.node hk _ _ _) => ! decide (k < hk)
  | _ => false

/-- The emission test of `Check` at a visited node. -/
def isBad (n : BTree) : Bool := n.badLo || n.badHi

/-- The nodes the `Check` channel emits when drained without cancelling:
the visited nodes whose `badLo || badHi` test fires. -/
def checkStream (t : BTree) : List BTree :=
  t.visitNodes.filter isBad

end BTree

/-- A whole-container state is the sentinel's `lo` subtree; a sequence of
`Insert` calls is a left fold. -/
def insertList (t : BTree) (ps : List (Int × Int)) : BTree :=
  ps.foldl (fun acc p => acc.insert p.1 p.2) t

/-- The value the most recent `Insert` of key `k` carried, if any: the
reference model of upsert semantics. -/
def lastVal (ps : List (Int × Int)) (k : Int) : Option Int :=
  ps.foldl (fun acc p => if p.1 = k then some p.2 else acc) none

/-- The key list `{0..63}` of the source tests, as `Int`s. -/
def rangeL (n : Nat) : List Int := (List.range n).map Int.ofNat

namespace BTree

lemma keysList_nil : (nil).keysList = [] := rfl

lemma keysList_node (k v : Int) (lo hi : BTree) :
    (node k v lo hi).keysList = lo.keysList ++ k :: hi.keysList := by
  simp [keysList, inorder]

/-- The BST ordering invariant: every key in the `lo` subtree is strictly
below the node's key, every key in the `hi` subtree strictly above, at every
node. -/
inductive Ordered : BTree → Prop
  | nil : Ordered .nil
  | node {k v : Int} {lo hi : BTree} :
      (∀ x ∈ lo.keysList, x < k) → (∀ x ∈ hi.keysList, k < x) →
      Ordered lo → Ordered hi → Ordered (.node k v lo hi)

lemma mem_keysList_insert (t : BTree) (k v x : Int) :
    x ∈ (t.insert k v).keysList ↔ x = k ∨ x ∈ t.keysList := by
  induction t with
  | nil => simp [insert, keysList, inorder]
  | node key value lo hi ihlo ihhi =>
    by_cases h1 : k < key
    · simp only [insert, if_pos h1, keysList_node, List.mem_append, List.mem_cons, ihlo]
      tauto
    · by_cases h2 : key < k
      · simp only [insert, if_neg h1, if_pos h2, keysList_node, List.mem_append,
          List.mem_cons, ihhi]
        tauto
      · have hk : k = key := le_antisymm (le_of_not_lt h2) (le_of_not_lt h1)
        subst hk
        simp only [insert, if_neg h1, if_neg h2, keysList_node, List.mem_append,
          List.mem_cons]
        tauto

lemma ordered_insert {t : BTree} (h : Ordered t) (k v : Int) :
    Ordered (t.insert k v) := by
  induction h with
  | nil =>
    exact .node (by simp [keysList, inorder]) (by simp [keysList, inorder]) .nil .nil
  | @node key value lo hi blo bhi olo ohi ihlo ihhi =>
    by_cases h1 : k < key
    · have blo2 : ∀ x ∈ (lo.insert k v).keysList, x < key := by
        intro x hx
        rcases (mem_keysList_insert lo k v x).1 hx with rfl | hx2
        · exact h1
        · exact blo x hx2
      simpa only [insert, if_pos h1] using Ordered.node blo2 bhi ihlo ohi
    · by_cases h2 : key < k
      · have bhi2 : ∀ x ∈ (hi.insert k v).keysList, key < x := by
          intro x hx
          rcases (mem_keysList_insert hi k v x).1 hx with rfl | hx2
          · exact h2
          · exact bhi x hx2
        simpa only [insert, if_neg h1, if_pos h2] using Ordered.node blo bhi2 olo ihhi
      · have hk : k = key := le_antisymm (le_of_not_lt h2) (le_of_not_lt h1)
        subst hk
        simpa only [insert, if_neg h1, if_neg h2] using Ordered.node blo bhi olo ohi

lemma sorted_keysList {t : BTree} (h : Ordered t) : t.keysList.Sorted (· < ·) := by
  induction h with
  | nil => simp [keysList, inorder]
  | @node key value lo hi blo bhi olo ohi ihlo ihhi =>
    rw [keysList_node]
    show List.Pairwise _ _
    refine List.pairwise_append.2 ⟨ihlo, List.pairwise_cons.2 ⟨bhi, ihhi⟩, ?_⟩
    intro a ha b hb
    rcases List.mem_cons.1 hb with rfl | hb2
    · exact blo a ha
    · exact lt_trans (blo a ha) (bhi b hb2)

lemma nodup_keysList {t : BTree} (h : Ordered t) : t.keysList.Nodup :=
  (sorted_keysList h).nodup

lemma get_shape {t : BTree} {k : Int} {n : BTree} (h : t.get k = some n) :
    ∃ value lo hi, n = .node k value lo hi := by
  induction t with
  | nil => simp [get] at h
  | node key value lo hi ihlo ihhi =>
    by_cases h1 : k < key
    · exact ihlo (by simpa [get, h1] using h)
    · by_cases h2 : key < k
      · exact ihhi (by simpa [get, h1, h2] using h)
      · have hk : k = key := le_antisymm (le_of_not_lt h2) (le_of_not_lt h1)
        subst hk
        simp only [get, if_neg h1, if_neg h2, Option.some.injEq] at h
        exact ⟨value, lo, hi, h.symm⟩

lemma getValue?_eq_none {t : BTree} {k : Int} :
    t.getValue? k = none ↔ t.get k = none := by
  unfold getValue?
  cases hg : t.get k with
  | none => simp
  | some n =>
    obtain ⟨v, lo, hi, rfl⟩ := get_shape hg
    simp [value?]

lemma getValue?_insert_self (t : BTree) (k v : Int) :
    (t.insert k v).getValue? k = some v := by
  induction t with
  | nil => simp [insert, getValue?, get, value?]
  | node key value lo hi ihlo ihhi =>
    by_cases h1 : k < key
    · simpa [insert, getValue?, get, h1] using ihlo
    · by_cases h2 : key < k
      · simpa [insert, getValue?, get, h1, h2] using ihhi
      · have hk : k = key := le_antisymm (le_of_not_lt h2) (le_of_not_lt h1)
        subst hk
        simp [insert, getValue?, get, h1, h2, value?]

lemma getValue?_insert_ne (t : BTree) {k2 k : Int} (hne : k2 ≠ k) (v : Int) :
    (t.insert k v).getValue? k2 = t.getValue? k2 := by
  induction t with
  | nil =>
    rcases lt_or_gt_of_ne hne with h | h
    · simp [insert, getValue?, get, h]
    · simp [insert, getValue?, get, not_lt_of_gt h, h]
  | node key value lo hi ihlo ihhi =>
    by_cases h1 : k < key
    · by_cases g1 : k2 < key
      · simpa [insert, getValue?, get, h1, g1] using ihlo
      · simp only [insert, if_pos h1, getValue?, get, if_neg g1]
        split <;> simp [value?]
    · by_cases h2 : key < k
      · by_cases g1 : k2 < key
        · simp [insert, getValue?, get, h1, h2, g1]
        · by_cases g2 : key < k2
          · simpa [insert, getValue?, get, h1, h2, g1, g2] using ihhi
          · simp [insert, getValue?, get, h1, h2, g1, g2, value?]
      · have hk : k = key := le_antisymm (le_of_not_lt h2) (le_of_not_lt h1)
        subst hk
        by_cases g1 : k2 < k
        · simp [insert, getValue?, get, g1]
        · have g2 : k < k2 := lt_of_le_of_ne (le_of_not_lt g1) (Ne.symm hne)
          simp [insert, getValue?, get, g1, g2]

end BTree

lemma getValue?_insertList (ps : List (Int × Int)) (t : BTree) (k : Int) :
    (insertList t ps).getValue? k =
      ps.foldl (fun acc p => if p.1 = k then some p.2 else acc) (t.getValue? k) := by
  induction ps generalizing t with
  | nil => rfl
  | cons p rest ih =>
    rw [insertList, List.foldl_cons]
    rw [show List.foldl (fun acc q => acc.insert q.1 q.2) (t.insert p.1 p.2) rest =
        insertList (t.insert p.1 p.2) rest from rfl, ih, List.foldl_cons]
    congr 1
    by_cases h : p.1 = k
    · subst h
      simp [BTree.getValue?_insert_self]
    · simp [h, BTree.getValue?_insert_ne t (fun hh => h hh.symm)]

lemma lastVal_foldl_eq_none (ps : List (Int × Int)) (acc : Option Int) (k : Int) :
    ps.foldl (fun acc p => if p.1 = k then some p.2 else acc) acc = none ↔
      acc = none ∧ k ∉ ps.map Prod.fst := by
  induction ps generalizing acc with
  | nil => simp
  | cons p rest ih =>
    by_cases h : p.1 = k
    · simp [List.foldl_cons, h, ih]
    · simp only [List.foldl_cons, if_neg h, ih, List.map_cons, List.mem_cons]
      have : ¬ k = p.1 := fun hh => h hh.symm
      tauto

lemma ordered_insertList (ps : List (Int × Int)) {t : BTree} (h : BTree.Ordered t) :
    BTree.Ordered (insertList t ps) := by
  induction ps generalizing t with
  | nil => exact h
  | cons p rest ih => exact ih (BTree.ordered_insert h p.1 p.2)

lemma mem_keysList_insertList (ps : List (Int × Int)) (t : BTree) (k : Int) :
    k ∈ (insertList t ps).keysList ↔ k ∈ ps.map Prod.fst ∨ k ∈ t.keysList := by
  induction ps generalizing t with
  | nil => simp [insertList]
  | cons p rest ih =>
    rw [insertList, List.foldl_cons]
    rw [show List.foldl (fun acc q => acc.insert q.1 q.2) (t.insert p.1 p.2) rest =
        insertList (t.insert p.1 p.2) rest from rfl, ih]
    simp only [BTree.mem_keysList_insert, List.map_cons, List.mem_cons]
    tauto

lemma sorted_rangeL (n : Nat) : (rangeL n).Sorted (· < ·) :=
  List.Pairwise.map Int.ofNat (fun _ _ h => Int.ofNat_lt.mpr h) (List.sorted_lt_range n)

lemma self_mem_keysList (k v : Int) (lo hi : BTree) :
    k ∈ (BTree.node k v lo hi).keysList := by
  simp [BTree.keysList_node]

lemma map_key?_visitNodes (t : BTree) :
    t.visitNodes.map BTree.key? = t.keysList.map some := by
  induction t with
  | nil => rfl
  | node k v lo hi ihlo ihhi =>
    simp [BTree.visitNodes, BTree.keysList_node, BTree.key?, ihlo, ihhi,
      BTree.keysList, BTree.inorder]

lemma ordered_of_mem_visitNodes {t n : BTree} (h : BTree.Ordered t)
    (hm : n ∈ t.visitNodes) : BTree.Ordered n := by
  induction h with
  | nil => simp [BTree.visitNodes] at hm
  | @node k v lo hi blo bhi olo ohi ihlo ihhi =>
    simp only [BTree.visitNodes, List.mem_append, List.mem_cons] at hm
    rcases hm with h1 | h2 | h3
    · exact ihlo h1
    · exact h2 ▸ BTree.Ordered.node blo bhi olo ohi
    · exact ihhi h3

lemma isBad_eq_false {n : BTree} (h : BTree.Ordered n) : BTree.isBad n = false := by
  cases h with
  | nil => rfl
  | @node k v lo hi blo bhi olo ohi =>
    have hlo : BTree.badLo (.node k v lo hi) = false := by
      cases lo with
      | nil => rfl
      | node lk lv llo lhi =>
        have hb := blo lk (self_mem_keysList lk lv llo lhi)
        simp [BTree.badLo, hb]
    have hhi : BTree.badHi (.node k v lo hi) = false := by
      cases hi with
      | nil => rfl
      | node hk hv hlo2 hhi2 =>
        have hb := bhi hk (self_mem_keysList hk hv hlo2 hhi2)
        simp [BTree.badHi, hb]
    simp [BTree.isBad, hlo, hhi]

/-- Claim C4: after any finite sequence of `Insert(key, value)` calls on a
fresh tree, `Get(k)` finds a node holding the most recently inserted value
for every inserted key `k`, there is exactly one node for such a key, and
`Get(k)` is absent (`nil`) for every key never inserted — in particular for
every key on the empty tree (`ps = []`). -/
theorem claim_C4 (ps : List (Int × Int)) (k : Int) :
    ((insertList .nil ps).getValue? k = lastVal ps k) ∧
    (k ∉ ps.map Prod.fst → (insertList .nil ps).get k = none) ∧
    (k ∈ ps.map Prod.fst → (insertList .nil ps).keysList.count k = 1) := by
  refine ⟨getValue?_insertList ps .nil k, ?_, ?_⟩
  · intro hk
    refine BTree.getValue?_eq_none.1 ?_
    rw [getValue?_insertList ps .nil k]
    exact (lastVal_foldl_eq_none ps _ k).2 ⟨rfl, hk⟩
  · intro hk
    have ho := ordered_insertList ps BTree.Ordered.nil
    rw [List.count_eq_of_nodup (BTree.nodup_keysList ho)]
    rw [if_pos ((mem_keysList_insertList ps .nil k).2 (Or.inl hk))]

/-- Witness for C4 at a concrete insertion sequence: key 1 is inserted twice
(values 5 then 7), key 2 once; `Get 1` holds the last value 7 with exactly
one node for key 1, and `Get 3` is absent. -/
theorem claim_C4_witness :
    ((insertList .nil [(1, 5), (2, 9), (1, 7)]).getValue? 1 = some 7) ∧
    ((insertList .nil [(1, 5), (2, 9), (1, 7)]).get 3 = none) ∧
    ((insertList .nil [(1, 5), (2, 9), (1, 7)]).keysList.count 1 = 1) :=
  ⟨(claim_C4 [(1, 5), (2, 9), (1, 7)] 1).1.trans (by decide),
   (claim_C4 [(1, 5), (2, 9), (1, 7)] 3).2.1 (by decide),
   (claim_C4 [(1, 5), (2, 9), (1, 7)] 1).2.2 (by decide)⟩

lemma keysList_insertList_of_perm (n : Nat) (ps : List (Int × Int))
    (hp : (ps.map Prod.fst).Perm (rangeL n)) :
    (insertList .nil ps).keysList = rangeL n := by
  have ho := ordered_insertList ps BTree.Ordered.nil
  have hnd2 : (rangeL n).Nodup := (sorted_rangeL n).nodup
  have hperm : (insertList BTree.nil ps).keysList.Perm (rangeL n) := by
    refine (List.perm_ext_iff_of_nodup (BTree.nodup_keysList ho) hnd2).2 ?_
    intro a
    rw [mem_keysList_insertList]
    simp only [BTree.keysList_nil, List.not_mem_nil, or_false]
    exact hp.mem_iff
  exact List.eq_of_perm_of_sorted hperm (BTree.sorted_keysList ho) (sorted_rangeL n)

/-- Claim C6: after inserting the key set `{0..63}` in any order into a
fresh tree, the `Keys` stream (drained without cancellation, i.e. the keys
of the visited nodes in visiting order) is exactly `0,1,...,63` in strictly
ascending order — no gaps, no repeats. -/
theorem claim_C6 (ps : List (Int × Int)) (hp : (ps.map Prod.fst).Perm (rangeL 64)) :
    (insertList .nil ps).keysList = rangeL 64 :=
  keysList_insertList_of_perm 64 ps hp

/-- Witness for C6 at a concrete insertion order (a shuffled enumeration of
`{0..63}` with value `-k` for key `k`). -/
theorem claim_C6_witness :
    (insertList .nil ((rangeL 64).reverse.map (fun k => (k, -k)))).keysList = rangeL 64 := by
  refine claim_C6 _ ?_
  have he : ((rangeL 64).reverse.map (fun k => (k, -k))).map Prod.fst
      = (rangeL 64).reverse := by decide
  rw [he]
  exact List.reverse_perm (rangeL 64)

/-- Claim C7: `Check` emits exactly the visited (hence non-sentinel) nodes
whose `Lo` child exists with a key not strictly below the node's key, or
whose `Hi` child exists with a key not strictly above it; and after
inserting any permutation of `{0..63}` into a fresh tree it emits nothing. -/
theorem claim_C7 :
    (∀ t n : BTree, n ∈ t.checkStream ↔
      n ∈ t.visitNodes ∧ (BTree.badLo n || BTree.badHi n) = true) ∧
    (∀ ps : List (Int × Int), (ps.map Prod.fst).Perm (rangeL 64) →
      (insertList .nil ps).checkStream = []) := by
  constructor
  · intro t n
    exact List.mem_filter
  · intro ps _
    have ho := ordered_insertList ps BTree.Ordered.nil
    refine List.filter_eq_nil_iff.2 ?_
    intro n hn
    rw [isBad_eq_false (ordered_of_mem_visitNodes ho hn)]
    simp

/-- Witness for C7: the membership characterisation at a concrete ill-formed
tree (root key 1 with `lo` child key 5: the root is emitted), and emptiness
of `Check` after inserting a concrete permutation of `{0..63}`. -/
theorem claim_C7_witness :
    ((BTree.node 1 0 (.node 5 0 .nil .nil) .nil) ∈
        (BTree.node 1 0 (.node 5 0 .nil .nil) .nil).checkStream ↔
      (BTree.node 1 0 (.node 5 0 .nil .nil) .nil) ∈
          (BTree.node 1 0 (.node 5 0 .nil .nil) .nil).visitNodes ∧
        (BTree.badLo (.node 1 0 (.node 5 0 .nil .nil) .nil) ||
          BTree.badHi (.node 1 0 (.node 5 0 .nil .nil) .nil)) = true) ∧
    (insertList .nil ((rangeL 64).map (fun k => (k, -k)))).checkStream = [] := by
  constructor
  · exact claim_C7.1 _ _
  · refine claim_C7.2 _ ?_
    have he : ((rangeL 64).map (fun k => (k, -k))).map Prod.fst = rangeL 64 := by decide
    rw [he]

/-! ## Part 2: pointer-arena embedding

The raw pointer structure of the source (`Parent` back-links included) is
embedded as an arena: a list of heap cells addressed by index.  A Go pointer
is `Option Nat` (`none` is `nil`); pointer identity is index equality.  The
sentinel created by `NewBasic` sits at index 0 with its `parent` index equal
to its own, and its key/value unset (`none`).  Fuel bounds every loop and
recursion of the source; the concrete computations below use ample fuel. -/

/-- One heap cell of a `BasicBST` node: `Key`, `Value`, `Parent`,
`Child[lo]`, `Child[hi]`.  Key and value are unset (`none`) exactly where
the Go zero value leaves the interfaces `nil` (the sentinel).  The inert
`Height` field is omitted. -/
structure ANode where
  key : Option Int
  value : Option Int
  parent : Nat
  lo : Option Nat
  hi : Option Nat
deriving DecidableEq, Repr

/-- The arena: heap cells addressed by their list index. -/
abbrev Heap := List ANode

/-- Source `NewBasic`: a lone sentinel whose `Parent` points to itself. -/
def newBasic : Heap := [⟨none, none, 0, none, none⟩]

/-- Source `IsSentinel`: `n != nil && n.Parent == n`. -/
def isSentinelA (h : Heap) (p : Option Nat) : Bool :=
  match p with
  | none => false
  | some i =>
    match h[i]? with
    | none => false
    | some nd => nd.parent == i

/-- `a.Less(b)` on optional keys.  In the source the comparison is a method
of the key interface and is only ever reached with both keys set; the `j`
parameter is the (arbitrary) answer a comparison touching an unset key would
give.  Claim C10 proves the operations are insensitive to `j`: the ordering
capability is never consulted on the sentinel's unset key. -/
def ltK (j : Bool) : Option Int → Option Int → Bool
  | some a, some b => decide (a < b)
  | _, _ => j

/-- Source `Get` on the arena, from any starting pointer (the public call
starts at the sentinel): `nil` misses; at the sentinel, or when
`k.Less(n.Key)`, descend `lo`; when `n.Key.Less(k)`, descend `hi`; otherwise
the current node is the result. -/
def aGet (j : Bool) : Nat → Heap → Option Nat → Int → Option Nat
  | 0, _, _, _ => none
  | _ + 1, _, none, _ => none
  | fuel + 1, h, some i, k =>
    match h[i]? with
    | none => none
    | some nd =>
      if isSentinelA h (some i) || ltK j (some k) nd.key then aGet j fuel h nd.lo k
      else if ltK j nd.key (some k) then aGet j fuel h nd.hi k
      else some i

/-- Source `Insert` on the arena, from node `i`: descend as in lookup; an
empty child slot receives a freshly allocated cell (appended at the end of
the arena) whose `parent` is the current node; an equal key overwrites the
value in place.  `none` is fuel exhaustion. -/
def aInsert : Nat → Heap → Nat → Int → Int → Option Heap
  | 0, _, _, _, _ => none
  | fuel + 1, h, i, k, v =>
    match h[i]? with
    | none => none
    | some nd =>
      if isSentinelA h (some i) || ltK false (some k) nd.key then
        match nd.lo with
        | none =>
          some (h.set i { nd with lo := some h.length } ++
            [⟨some k, some v, i, none, none⟩])
        | some c => aInsert fuel h c k v
      else if ltK false nd.key (some k) then
        match nd.hi with
        | none =>
          some (h.set i { nd with hi := some h.length } ++
            [⟨some k, some v, i, none, none⟩])
        | some c => aInsert fuel h c k v
      else some (h.set i { nd with value := some v })

/-- Source `which`: `lo` (0) or `hi` (1) according to which of the parent's
child slots holds `n`, and `-1` when neither does. -/
def whichA (h : Heap) (i : Nat) : Int :=
  match h[i]? with
  | none => -1
  | some nd =>
    match h[nd.parent]? with
    | none => -1
    | some p =>
      if p.lo = some i then 0
      else if p.hi = some i then 1
      else -1

/-- The assignment `h[i].Child[d] = c`.  `none` models the Go runtime panic
`index out of range` raised by `n.Parent.Child[n.which()]` when `which()`
returned `-1` (a dangling cell index, which has no Go counterpart, also
gives `none`). -/
def setChildAt (h : Heap) (i : Nat) (d : Int) (c : Option Nat) : Option Heap :=
  match h[i]? with
  | none => none
  | some nd =>
    if d = 0 then some (h.set i { nd with lo := c })
    else if d = 1 then some (h.set i { nd with hi := c })
    else none

/-- The `cur := n.Child[hi]; for cur.Child[lo] != nil { cur = cur.Child[lo] }`
descent of `Delete`'s two-child case.  `none` is fuel exhaustion (or a
dangling index, which has no Go counterpart). -/
def leftmostA : Nat → Heap → Nat → Option Nat
  | 0, _, _ => none
  | fuel + 1, h, i =>
    match h[i]? with
    | none => none
    | some nd =>
      match nd.lo with
      | none => some i
      | some c => leftmostA fuel h c

/-- Result of a `Delete` call: `ok` is a normal return with the updated
heap; `fault` is the Go runtime panic (out-of-range child index reached
through `which() == -1`, or a dangling cell index, which well-formed states
never produce); `out` is fuel exhaustion of the embedding and corresponds
to no Go behaviour. -/
inductive DRes where
  | out : DRes
  | fault : DRes
  | ok : Heap → DRes
deriving DecidableEq, Repr

/-- Source `Delete` (part_000): sentinel and `nil` receivers return
unchanged (the source checks `IsSentinel` before `n == nil`; for a `nil`
receiver `IsSentinel` is false, so the order is immaterial and the `nil`
row here returns the heap as the source does); with no `hi` child the
parent's slot for `n` is repointed at `n.Child[lo]`; with no `lo` child,
at `n.Child[hi]`; with both children, the successor (leftmost cell of the
`hi` subtree) has its key and value copied into `n` and is itself deleted
recursively.  Neither splice touches the promoted child's `parent` field,
exactly as in the source. -/
def aDelete : Nat → Heap → Option Nat → DRes
  | 0, _, _ => .out
  | _ + 1, h, none => .ok h
  | fuel + 1, h, some i =>
    if isSentinelA h (some i) then .ok h
    else
      match h[i]? with
      | none => .fault
      | some nd =>
        if nd.hi = none then
          match setChildAt h nd.parent (whichA h i) nd.lo with
          | none => .fault
          | some h2 => .ok h2
        else if nd.lo = none then
          match setChildAt h nd.parent (whichA h i) nd.hi with
          | none => .fault
          | some h2 => .ok h2
        else
          match nd.hi with
          | none => .fault
          | some c0 =>
            match leftmostA fuel h c0 with
            | none => .out
            | some c =>
              match h[c]? with
              | none => .fault
              | some cnd =>
                aDelete fuel (h.set i { nd with key := cnd.key, value := cnd.value })
                  (some c)

/-- Source `Visit` on the arena: the indices of the cells handed to the
callback, in visiting order; the sentinel descends into its `lo` slot
without being visited itself.  (The source guards each recursive call with
a `!= nil` check; recursing into `nil` and returning nothing is the same.) -/
def aVisit : Nat → Heap → Option Nat → List Nat
  | 0, _, _ => []
  | _ + 1, _, none => []
  | fuel + 1, h, some i =>
    match h[i]? with
    | none => []
    | some nd =>
      if isSentinelA h (some i) then aVisit fuel h nd.lo
      else aVisit fuel h nd.lo ++ i :: aVisit fuel h nd.hi

/-- Source `Check`'s `badLo` at cell `i`:
`n.Child[lo] != nil && !n.Child[lo].Key.Less(n.Key)`. -/
def aBadLo (h : Heap) (i : Nat) : Bool :=
  match h[i]? with
  | none => false
  | some nd =>
    match nd.lo with
    | none => false
    | some c =>
      match h[c]? with
      | none => false
      | some cnd => ! ltK false cnd.key nd.key

/-- Source `Check`'s `badHi` at cell `i`:
`n.Child[hi] != nil && !n.Key.Less(n.Child[hi].Key)`. -/
def aBadHi (h : Heap) (i : Nat) : Bool :=
  match h[i]? with
  | none => false
  | some nd =>
    match nd.hi with
    | none => false
    | some c =>
      match h[c]? with
      | none => false
      | some cnd => ! ltK false nd.key cnd.key

/-- The cells the `Check` channel emits when drained without cancelling. -/
def aCheck (fuel : Nat) (h : Heap) (p : Option Nat) : List Nat :=
  (aVisit fuel h p).filter (fun i => aBadLo h i || aBadHi h i)

/-- Claim C1's linkage condition at one cell: every non-nil child's
`parent` field points back at the cell. -/
def linkOKat (h : Heap) (i : Nat) : Bool :=
  match h[i]? with
  | none => true
  | some nd =>
    (match nd.lo with
     | none => true
     | some c =>
       match h[c]? with
       | none => false
       | some cnd => cnd.parent == i) &&
    (match nd.hi with
     | none => true
     | some c =>
       match h[c]? with
       | none => false
       | some cnd => cnd.parent == i)

/-- The cells "in the tree": the sentinel and every cell `Visit` reaches
from it. -/
def treeNodes (fuel : Nat) (h : Heap) : List Nat :=
  0 :: aVisit fuel h (some 0)

/-- Claim C1's invariant over the whole tree. -/
def linkConsistent (fuel : Nat) (h : Heap) : Bool :=
  (treeNodes fuel h).all (linkOKat h)

/-- A sequence of public `Insert` calls (each starts at the sentinel,
index 0). -/
def aInsertList (h : Heap) (ps : List (Int × Int)) : Option Heap :=
  ps.foldlM (fun acc p => aInsert (acc.length + 1) acc 0 p.1 p.2) h

/-- Dereference a pointer and read the cell's `Value`. -/
def valueAtA (h : Heap) (p : Option Nat) : Option Int :=
  match p with
  | none => none
  | some i =>
    match h[i]? with
    | none => none
    | some nd => nd.value

example : (aInsertList newBasic [(3, -3), (1, -1)]).isSome = true := by decide

example : aGet false 9 ((aInsertList newBasic [(3, -3), (1, -1)]).getD []) (some 0) 1
    = some 2 := by decide

/-! ## Concrete scenarios on the arena -/

/-- The deletion scenario of the source test `TestBasicInsertAndVisit` and
of claim C3: keys `{3,1,5,0,2,4,6}` inserted in that order, value `-k`. -/
def c3ps : List (Int × Int) :=
  [(3, -3), (1, -1), (5, -5), (0, 0), (2, -2), (4, -4), (6, -6)]

/-- The heap after the seven inserts of `c3ps`. -/
def c3Heap : Heap := (aInsertList newBasic c3ps).getD []

/-- The handle `Get(3)` returns (the root cell, which has two children). -/
def c3Target : Option Nat := aGet false 20 c3Heap (some 0) 3

/-- The heap after `Delete` on that handle. -/
def c3After : Heap :=
  match aDelete 20 c3Heap c3Target with
  | .ok h => h
  | _ => []

/-- Claim C3: inserting `{3,1,5,0,2,4,6}` with value `-k`, then deleting
the node obtained by `Get(3)`, leaves a tree on which the checker emits no
violations, `Get(3)` is absent, and every other key is still retrievable
with its original value `-k`. -/
theorem claim_C3 :
    (aInsertList newBasic c3ps).isSome = true ∧
    aDelete 20 c3Heap c3Target = .ok c3After ∧
    aCheck 20 c3After (some 0) = [] ∧
    aGet false 20 c3After (some 0) 3 = none ∧
    ((0 : Int) ∈ ([0, 1, 2, 4, 5, 6] : List Int) ∧
      ∀ k ∈ ([0, 1, 2, 4, 5, 6] : List Int),
        valueAtA c3After (aGet false 20 c3After (some 0) k) = some (-k)) := by
  decide

/-- Claim C8: `Delete` on the sentinel, and `Delete` on an absent (`nil`)
handle, return without fault and leave the heap unchanged. -/
theorem claim_C8 :
    (∀ (fuel : Nat) (h : Heap), aDelete (fuel + 1) h none = .ok h) ∧
    (∀ (fuel : Nat) (h : Heap) (i : Nat), isSentinelA h (some i) = true →
      aDelete (fuel + 1) h (some i) = .ok h) := by
  constructor
  · intro fuel h
    rfl
  · intro fuel h i hs
    unfold aDelete
    rw [if_pos hs]

/-- Witness for C8 on the fresh container: deleting `nil` and deleting the
sentinel itself both leave `newBasic` unchanged. -/
theorem claim_C8_witness :
    aDelete 5 newBasic none = .ok newBasic ∧
    aDelete 5 newBasic (some 0) = .ok newBasic :=
  ⟨claim_C8.1 4 newBasic, claim_C8.2 4 newBasic 0 (by decide)⟩

/-- Insertion order `3, 1, 0`: the cell for key 1 (index 2) has a `lo`
child (key 0, index 3) and no `hi` child. -/
def c1ps : List (Int × Int) := [(3, -3), (1, -1), (0, 0)]

/-- The heap after the three inserts of `c1ps`. -/
def c1Heap : Heap := (aInsertList newBasic c1ps).getD []

/-- The handle `Get(1)` returns (a node with exactly one child). -/
def c1Target : Option Nat := aGet false 9 c1Heap (some 0) 1

/-- The heap after `Delete` on the key-1 cell. -/
def c1After : Heap :=
  match aDelete 9 c1Heap c1Target with
  | .ok h => h
  | _ => []

/-- Counterexample to claim C1 as stated: before the delete the linkage is
mutually consistent; `Delete` on the node holding key 1 — a node with one
(`lo`) child — returns normally, and afterwards the linkage check fails:
the promoted key-0 cell is now its grandparent's `lo` child while its
`parent` field still points at the detached key-1 cell. -/
theorem claim_C1_counterexample :
    (aInsertList newBasic c1ps).isSome = true ∧
    c1Target = some 2 ∧
    linkConsistent 9 c1Heap = true ∧
    aDelete 9 c1Heap c1Target = .ok c1After ∧
    linkConsistent 9 c1After = false := by
  decide

/-- Two inserts `3, 1`: the cell for key 1 (index 2) is a leaf. -/
def c2Heap : Heap := (aInsertList newBasic [(3, -3), (1, -1)]).getD []

/-- The heap after the first `Delete` of the key-1 leaf (index 2). -/
def c2After : Heap :=
  match aDelete 9 c2Heap (some 2) with
  | .ok h => h
  | _ => []

/-- Counterexample to claim C2 as stated: the first `Delete` on the key-1
leaf succeeds and detaches it; calling `Delete` a second time on the same
handle is not a no-op — `which()` finds the cell in neither of its parent's
slots, returns `-1`, and the write `n.Parent.Child[-1]` faults (the Go
runtime panics with an out-of-range index). -/
theorem claim_C2_counterexample :
    aGet false 9 c2Heap (some 0) 1 = some 2 ∧
    aDelete 9 c2Heap (some 2) = .ok c2After ∧
    aDelete 9 c2After (some 2) = .fault := by
  decide

/-! ## General theorems on the arena -/

lemma lt_length_of_getElem? {h : Heap} {i : Nat} {nd : ANode}
    (hh : h[i]? = some nd) : i < h.length := by
  rcases List.getElem?_eq_some.1 hh with ⟨w, _⟩
  exact w

/-- Claim C2 amended, the failing direction: a handle that is no longer any
child of its `Parent` (as every detached handle is) and misses at least one
child makes `Delete` fault: `which()` returns `-1` and the write
`n.Parent.Child[-1]` is an out-of-range index. -/
theorem claim_C2_amended (fuel : Nat) (h : Heap) (i : Nat) (nd : ANode)
    (hnd : h[i]? = some nd) (hns : nd.parent ≠ i) (hw : whichA h i = -1)
    (hch : nd.hi = none ∨ nd.lo = none) :
    aDelete (fuel + 1) h (some i) = .fault := by
  have hsent : isSentinelA h (some i) = false := by
    simp [isSentinelA, hnd, hns]
  have hset : ∀ c : Option Nat, setChildAt h nd.parent (whichA h i) c = none := by
    intro c
    rw [hw]
    unfold setChildAt
    cases h[nd.parent]? <;> simp
  unfold aDelete
  rw [hsent]
  simp only [Bool.false_eq_true, if_false, hnd]
  by_cases hh : nd.hi = none
  · rw [if_pos hh, hset nd.lo]
  · rcases hch with hch | hch
    · exact absurd hch hh
    · rw [if_neg hh, if_pos hch, hset nd.hi]

/-- Witness for the amended C2, extending the concrete counterexample
scenario: the detached key-1 leaf (index 2) in `c2After` faults on a second
`Delete`. -/
theorem claim_C2_amended_witness : aDelete 9 c2After (some 2) = .fault :=
  claim_C2_amended 8 c2After 2 ⟨some 1, some (-1), 1, none, none⟩
    (by decide) (by decide) (by decide) (Or.inl (by decide))

/-- Every non-sentinel cell carries a set key.  This holds of every
reachable state: only the sentinel's key is left unset by the operations. -/
abbrev keyedH (h : Heap) : Prop :=
  ∀ (i : Nat) (nd : ANode), h[i]? = some nd → nd.parent ≠ i → nd.key ≠ none

/-- Bounded boolean form of `keyedH`, for deciding it on concrete heaps. -/
def keyedB (h : Heap) : Bool :=
  (List.range h.length).all fun i =>
    match (h[i]? : Option ANode) with
    | none => true
    | some nd => nd.parent == i || nd.key.isSome

lemma keyedH_iff (h : Heap) : keyedH h ↔ keyedB h = true := by
  constructor
  · intro hk
    refine List.all_eq_true.2 ?_
    intro i _
    cases hh : h[i]? with
    | none => simp
    | some nd =>
      by_cases hp : nd.parent = i
      · simp [hp]
      · have hkey := hk i nd hh hp
        simp [hp, Option.isSome_iff_ne_none.2 hkey]
  · intro hb i nd hh hp
    have hi : i < h.length := lt_length_of_getElem? hh
    have hall := List.all_eq_true.1 hb i (List.mem_range.2 hi)
    simp only [hh] at hall
    have hbeq : (nd.parent == i) = false := by
      simp [hp]
    rw [hbeq] at hall
    simp only [Bool.false_or] at hall
    exact Option.isSome_iff_ne_none.1 hall

/-- Claim C10: for every keyed heap (every reachable state), `Get` is
insensitive to the answer an ordering query on an unset key would give —
the ordering capability is never consulted on the sentinel's unset key —
and whenever `Get` returns a node it is a non-sentinel node whose key
equals the sought key; lookup at the sentinel always descends into the `lo`
slot before any comparison. -/
theorem claim_C10 (j : Bool) (fuel : Nat) (h : Heap) (p : Option Nat) (k : Int)
    (hk : keyedH h) :
    aGet j fuel h p k = aGet false fuel h p k ∧
    (∀ i, aGet j fuel h p k = some i →
      isSentinelA h (some i) = false ∧ ∃ nd, h[i]? = some nd ∧ nd.key = some k) := by
  induction fuel generalizing p with
  | zero =>
    refine ⟨rfl, ?_⟩
    intro i hi
    simp [aGet] at hi
  | succ fuel ih =>
    cases p with
    | none =>
      refine ⟨rfl, ?_⟩
      intro i hi
      simp [aGet] at hi
    | some i0 =>
      cases hh : h[i0]? with
      | none =>
        refine ⟨by simp [aGet, hh], ?_⟩
        intro i hi
        simp [aGet, hh] at hi
      | some nd =>
        by_cases hs : isSentinelA h (some i0) = true
        · have e1 : aGet j (fuel + 1) h (some i0) k = aGet j fuel h nd.lo k := by
            simp [aGet, hh, hs]
          have e2 : aGet false (fuel + 1) h (some i0) k = aGet false fuel h nd.lo k := by
            simp [aGet, hh, hs]
          refine ⟨e1.trans (((ih nd.lo).1).trans e2.symm), ?_⟩
          intro i hi
          rw [e1] at hi
          exact (ih nd.lo).2 i hi
        · have hp : nd.parent ≠ i0 := by
            intro hcon
            exact hs (by simp [isSentinelA, hh, hcon])
          obtain ⟨x, hx⟩ : ∃ x, nd.key = some x := by
            cases hkey : nd.key with
            | none => exact absurd hkey (hk i0 nd hh hp)
            | some x => exact ⟨x, rfl⟩
          have hsb : isSentinelA h (some i0) = false := by
            simpa using hs
          by_cases hlt : k < x
          · have e1 : aGet j (fuel + 1) h (some i0) k = aGet j fuel h nd.lo k := by
              simp [aGet, hh, hsb, hx, ltK, hlt]
            have e2 : aGet false (fuel + 1) h (some i0) k = aGet false fuel h nd.lo k := by
              simp [aGet, hh, hsb, hx, ltK, hlt]
            refine ⟨e1.trans (((ih nd.lo).1).trans e2.symm), ?_⟩
            intro i hi
            rw [e1] at hi
            exact (ih nd.lo).2 i hi
          · by_cases hgt : x < k
            · have e1 : aGet j (fuel + 1) h (some i0) k = aGet j fuel h nd.hi k := by
                simp [aGet, hh, hsb, hx, ltK, hlt, hgt]
              have e2 : aGet false (fuel + 1) h (some i0) k =
                  aGet false fuel h nd.hi k := by
                simp [aGet, hh, hsb, hx, ltK, hlt, hgt]
              refine ⟨e1.trans (((ih nd.hi).1).trans e2.symm), ?_⟩
              intro i hi
              rw [e1] at hi
              exact (ih nd.hi).2 i hi
            · have hxk : x = k := le_antisymm (le_of_not_lt hlt) (le_of_not_lt hgt)
              have e1 : aGet j (fuel + 1) h (some i0) k = some i0 := by
                simp [aGet, hh, hsb, hx, ltK, hlt, hgt]
              have e2 : aGet false (fuel + 1) h (some i0) k = some i0 := by
                simp [aGet, hh, hsb, hx, ltK, hlt, hgt]
              refine ⟨e1.trans e2.symm, ?_⟩
              intro i hi
              rw [e1] at hi
              obtain rfl : i0 = i := by simpa using hi
              exact ⟨hsb, nd, hh, hx ▸ congrArg some hxk⟩

/-- Witness for C10 at a concrete heap and key: junk-insensitivity of the
lookup, and the node found for key 1 is non-sentinel with key 1. -/
theorem claim_C10_witness :
    (aGet true 9 c2Heap (some 0) 1 = aGet false 9 c2Heap (some 0) 1) ∧
    (isSentinelA c2Heap (some 2) = false ∧
      ∃ nd, c2Heap[2]? = some nd ∧ nd.key = some 1) :=
  ⟨(claim_C10 true 9 c2Heap (some 0) 1 ((keyedH_iff c2Heap).mpr (by decide))).1,
   (claim_C10 true 9 c2Heap (some 0) 1
      ((keyedH_iff c2Heap).mpr (by decide))).2 2 (by decide)⟩

/-- All cell indices stored in the heap are in range. -/
abbrev closedH (h : Heap) : Prop :=
  ∀ (i : Nat) (nd : ANode), h[i]? = some nd → nd.parent < h.length ∧
    (∀ c, nd.lo = some c → c < h.length) ∧
    (∀ c, nd.hi = some c → c < h.length)

/-- Claim C1's invariant, as a predicate over all cells: each non-nil child
of any cell names a live cell whose `parent` field points back at it. -/
abbrev strongLink (h : Heap) : Prop :=
  ∀ (i c : Nat) (nd : ANode), h[i]? = some nd →
    (nd.lo = some c ∨ nd.hi = some c) →
    ∃ cnd, h[c]? = some cnd ∧ cnd.parent = i

/-- Bounded boolean form of `closedH`. -/
def closedB (h : Heap) : Bool :=
  h.all fun nd =>
    decide (nd.parent < h.length) &&
    (match nd.lo with | none => true | some c => decide (c < h.length)) &&
    (match nd.hi with | none => true | some c => decide (c < h.length))

lemma closedH_iff (h : Heap) : closedH h ↔ closedB h = true := by
  constructor
  · intro hc
    refine List.all_eq_true.2 ?_
    intro nd hmem
    obtain ⟨i, hi, hig⟩ := List.getElem_of_mem hmem
    have hsome : h[i]? = some nd := by
      rw [List.getElem?_eq_getElem hi, hig]
    obtain ⟨h1, h2, h3⟩ := hc i nd hsome
    refine by
      simp only [Bool.and_eq_true, decide_eq_true_eq]
      refine ⟨⟨h1, ?_⟩, ?_⟩
      · cases hlo : nd.lo with
        | none => rfl
        | some c => simpa using h2 c hlo
      · cases hhi : nd.hi with
        | none => rfl
        | some c => simpa using h3 c hhi
  · intro hb i nd hsome
    have hmem : nd ∈ h := List.getElem?_mem hsome
    have hall := List.all_eq_true.1 hb nd hmem
    simp only [Bool.and_eq_true, decide_eq_true_eq] at hall
    obtain ⟨⟨h1, h2⟩, h3⟩ := hall
    refine ⟨h1, ?_, ?_⟩
    · intro c hlo
      rw [hlo] at h2
      simpa using h2
    · intro c hhi
      rw [hhi] at h3
      simpa using h3

/-- Bounded boolean form of `strongLink`: `linkOKat` over every index. -/
def strongLinkB (h : Heap) : Bool :=
  (List.range h.length).all (linkOKat h)

lemma strongLink_iff (h : Heap) : strongLink h ↔ strongLinkB h = true := by
  constructor
  · intro hs
    refine List.all_eq_true.2 ?_
    intro i _
    cases hh : h[i]? with
    | none => simp [linkOKat, hh]
    | some nd =>
      have hlo : (match nd.lo with
          | none => true
          | some c =>
            match h[c]? with
            | none => false
            | some cnd => cnd.parent == i) = true := by
        cases hlo2 : nd.lo with
        | none => rfl
        | some c =>
          obtain ⟨cnd, hcnd, hpar⟩ := hs i c nd hh (Or.inl hlo2)
          simp [hcnd, hpar]
      have hhi : (match nd.hi with
          | none => true
          | some c =>
            match h[c]? with
            | none => false
            | some cnd => cnd.parent == i) = true := by
        cases hhi2 : nd.hi with
        | none => rfl
        | some c =>
          obtain ⟨cnd, hcnd, hpar⟩ := hs i c nd hh (Or.inr hhi2)
          simp [hcnd, hpar]
      simp [linkOKat, hh, hlo, hhi]
  · intro hb i c nd hh hor
    have hi : i < h.length := lt_length_of_getElem? hh
    have hall := List.all_eq_true.1 hb i (List.mem_range.2 hi)
    unfold linkOKat at hall
    rw [hh] at hall
    rw [Bool.and_eq_true] at hall
    obtain ⟨h1, h2⟩ := hall
    rcases hor with hor | hor
    · simp only [hor] at h1
      cases hc : h[c]? with
      | none => rw [hc] at h1; simp at h1
      | some cnd =>
        rw [hc] at h1
        exact ⟨cnd, rfl, by simpa using h1⟩
    · simp only [hor] at h2
      cases hc : h[c]? with
      | none => rw [hc] at h2; simp at h2
      | some cnd =>
        rw [hc] at h2
        exact ⟨cnd, rfl, by simpa using h2⟩

/-- Cell lookup in a heap extended by `set` at a live index plus one
appended cell. -/
lemma snoc_set_getElem (h : Heap) {i : Nat} (hi : i < h.length)
    (nd2 a : ANode) (j : Nat) :
    (h.set i nd2 ++ [a])[j]? =
      if j = i then some nd2 else if j = h.length then some a else h[j]? := by
  rw [List.getElem?_append, List.getElem?_set]
  simp only [List.length_set]
  by_cases h1 : j = i
  · subst h1
    simp [hi]
  · have e1 : ¬ i = j := fun hcon => h1 hcon.symm
    rw [if_neg h1]
    by_cases h2 : j = h.length
    · subst h2
      rw [if_neg (lt_irrefl h.length), if_pos rfl, Nat.sub_self]
      rfl
    · rw [if_neg h2]
      by_cases h3 : j < h.length
      · rw [if_pos h3, if_neg e1]
      · rw [if_neg h3]
        rw [List.getElem?_eq_none (le_of_not_lt h3)]
        rw [List.getElem?_eq_none
          (show (([a] : Heap)).length ≤ j - h.length by
            simp only [List.length_singleton]
            omega)]

/-- Allocating a fresh child cell (the `Insert` base case) preserves index
closure and the linkage invariant: the touched cell's updated slot names the
appended cell, whose `parent` is the touched cell. -/
lemma link_alloc {h : Heap} {i : Nat} {nd ndL : ANode} (hh : h[i]? = some nd)
    (hc : closedH h) (hs : strongLink h) (k v : Int)
    (hL : ndL.parent = nd.parent)
    (hslots : (ndL.lo = some h.length ∧ ndL.hi = nd.hi) ∨
      (ndL.hi = some h.length ∧ ndL.lo = nd.lo)) :
    closedH (h.set i ndL ++ [⟨some k, some v, i, none, none⟩]) ∧
    strongLink (h.set i ndL ++ [⟨some k, some v, i, none, none⟩]) := by
  have hi : i < h.length := lt_length_of_getElem? hh
  have hget : ∀ j, (h.set i ndL ++ [(⟨some k, some v, i, none, none⟩ : ANode)])[j]? =
      if j = i then some ndL
      else if j = h.length then some ⟨some k, some v, i, none, none⟩ else h[j]? :=
    fun j => snoc_set_getElem h hi ndL _ j
  have hlen : (h.set i ndL ++ [(⟨some k, some v, i, none, none⟩ : ANode)]).length =
      h.length + 1 := by
    simp
  have hchild : ∀ c : Nat, (ndL.lo = some c ∨ ndL.hi = some c) →
      c = h.length ∨ (nd.lo = some c ∨ nd.hi = some c) := by
    intro c hcc
    rcases hslots with ⟨e1, e2⟩ | ⟨e1, e2⟩
    · rcases hcc with hcc | hcc
      · rw [e1] at hcc
        exact Or.inl (Option.some.inj hcc).symm
      · rw [e2] at hcc
        exact Or.inr (Or.inr hcc)
    · rcases hcc with hcc | hcc
      · rw [e2] at hcc
        exact Or.inr (Or.inl hcc)
      · rw [e1] at hcc
        exact Or.inl (Option.some.inj hcc).symm
  have hbound : ∀ c : Nat, (nd.lo = some c ∨ nd.hi = some c) → c < h.length := by
    intro c hcc
    obtain ⟨_, q2, q3⟩ := hc i nd hh
    rcases hcc with hcc | hcc
    · exact q2 c hcc
    · exact q3 c hcc
  constructor
  · intro j md hmd
    rw [hget j] at hmd
    rw [hlen]
    by_cases h1 : j = i
    · rw [if_pos h1] at hmd
      obtain rfl : ndL = md := Option.some.inj hmd
      obtain ⟨p1, _, _⟩ := hc i nd hh
      refine ⟨by rw [hL]; omega, ?_, ?_⟩
      · intro c hcc
        rcases hchild c (Or.inl hcc) with rfl | hcc2
        · omega
        · have := hbound c hcc2
          omega
      · intro c hcc
        rcases hchild c (Or.inr hcc) with rfl | hcc2
        · omega
        · have := hbound c hcc2
          omega
    · rw [if_neg h1] at hmd
      by_cases h2 : j = h.length
      · rw [if_pos h2] at hmd
        obtain rfl : (⟨some k, some v, i, none, none⟩ : ANode) = md :=
          Option.some.inj hmd
        refine ⟨?_, ?_, ?_⟩
        · show i < h.length + 1
          omega
        · intro c hcc
          simp at hcc
        · intro c hcc
          simp at hcc
      · rw [if_neg h2] at hmd
        obtain ⟨p1, p2, p3⟩ := hc j md hmd
        refine ⟨by omega, ?_, ?_⟩
        · intro c hcc
          have := p2 c hcc
          omega
        · intro c hcc
          have := p3 c hcc
          omega
  · intro j c md hmd hor
    rw [hget j] at hmd
    by_cases h1 : j = i
    · rw [if_pos h1] at hmd
      obtain rfl : ndL = md := Option.some.inj hmd
      rcases hchild c hor with rfl | hcc2
      · refine ⟨⟨some k, some v, i, none, none⟩, ?_, h1.symm⟩
        rw [hget h.length, if_neg (by omega), if_pos rfl]
      · obtain ⟨cnd, hcnd, hpar⟩ := hs i c nd hh hcc2
        have hcl : c < h.length := hbound c hcc2
        by_cases hcisi : c = i
        · refine ⟨ndL, ?_, ?_⟩
          · rw [hget c, if_pos hcisi]
          · have hnd : nd = cnd := by
              rw [hcisi, hh] at hcnd
              exact Option.some.inj hcnd
            rw [hL, hnd, hpar]
            exact h1.symm
        · refine ⟨cnd, ?_, hpar.trans h1.symm⟩
          rw [hget c, if_neg hcisi, if_neg (by omega)]
          exact hcnd
    · rw [if_neg h1] at hmd
      by_cases h2 : j = h.length
      · rw [if_pos h2] at hmd
        obtain rfl : (⟨some k, some v, i, none, none⟩ : ANode) = md :=
          Option.some.inj hmd
        rcases hor with hor | hor <;> simp at hor
      · rw [if_neg h2] at hmd
        obtain ⟨cnd, hcnd, hpar⟩ := hs j c md hmd hor
        have hcl : c < h.length := by
          obtain ⟨_, q2, q3⟩ := hc j md hmd
          rcases hor with ho | ho
          · exact q2 c ho
          · exact q3 c ho
        by_cases hcisi : c = i
        · refine ⟨ndL, ?_, ?_⟩
          · rw [hget c, if_pos hcisi]
          · have hnd : nd = cnd := by
              rw [hcisi, hh] at hcnd
              exact Option.some.inj hcnd
            rw [hL, hnd]
            exact hpar
        · refine ⟨cnd, ?_, hpar⟩
          rw [hget c, if_neg hcisi, if_neg (by omega)]
          exact hcnd

/-- Overwriting a cell's `Value` in place (the `Insert` upsert case)
preserves index closure and the linkage invariant. -/
lemma link_set_value {h : Heap} {i : Nat} {nd : ANode} (hh : h[i]? = some nd)
    (hc : closedH h) (hs : strongLink h) (v : Int) :
    closedH (h.set i { nd with value := some v }) ∧
    strongLink (h.set i { nd with value := some v }) := by
  have hi : i < h.length := lt_length_of_getElem? hh
  have hget : ∀ j, (h.set i { nd with value := some v })[j]? =
      if j = i then some { nd with value := some v } else h[j]? := by
    intro j
    rw [List.getElem?_set]
    by_cases h1 : i = j
    · subst h1
      simp [hi]
    · rw [if_neg h1, if_neg (fun hcon => h1 hcon.symm)]
  have hlen : (h.set i { nd with value := some v }).length = h.length := by
    simp
  constructor
  · intro j md hmd
    rw [hget j] at hmd
    rw [hlen]
    by_cases h1 : j = i
    · rw [if_pos h1] at hmd
      obtain rfl : ({ nd with value := some v } : ANode) = md :=
        Option.some.inj hmd
      exact hc i nd hh
    · rw [if_neg h1] at hmd
      exact hc j md hmd
  · intro j c md hmd hor
    rw [hget j] at hmd
    by_cases h1 : j = i
    · rw [if_pos h1] at hmd
      obtain rfl : ({ nd with value := some v } : ANode) = md :=
        Option.some.inj hmd
      have hor2 : nd.lo = some c ∨ nd.hi = some c := hor
      obtain ⟨cnd, hcnd, hpar⟩ := hs i c nd hh hor2
      by_cases hcisi : c = i
      · refine ⟨{ nd with value := some v }, ?_, ?_⟩
        · rw [hget c, if_pos hcisi]
        · have hnd : nd = cnd := by
            rw [hcisi, hh] at hcnd
            exact Option.some.inj hcnd
          show nd.parent = j
          rw [hnd, hpar]
          exact h1.symm
      · refine ⟨cnd, ?_, hpar.trans h1.symm⟩
        rw [hget c, if_neg hcisi]
        exact hcnd
    · rw [if_neg h1] at hmd
      obtain ⟨cnd, hcnd, hpar⟩ := hs j c md hmd hor
      by_cases hcisi : c = i
      · refine ⟨{ nd with value := some v }, ?_, ?_⟩
        · rw [hget c, if_pos hcisi]
        · have hnd : nd = cnd := by
            rw [hcisi, hh] at hcnd
            exact Option.some.inj hcnd
          show nd.parent = j
          rw [hnd]
          exact hpar
      · refine ⟨cnd, ?_, hpar⟩
        rw [hget c, if_neg hcisi]
        exact hcnd

/-- `Insert` (from any live starting cell) preserves index closure and the
linkage invariant of claim C1. -/
lemma aInsert_link (fuel : Nat) :
    ∀ (h : Heap) (i : Nat) (k v : Int) (h2 : Heap),
      closedH h → strongLink h → aInsert fuel h i k v = some h2 →
      closedH h2 ∧ strongLink h2 := by
  induction fuel with
  | zero =>
    intro h i k v h2 _ _ hw
    simp [aInsert] at hw
  | succ fuel ih =>
    intro h i k v h2 hc hs hw
    simp only [aInsert] at hw
    cases hh : h[i]? with
    | none =>
      rw [hh] at hw
      simp at hw
    | some nd =>
      simp only [hh] at hw
      by_cases g1 : (isSentinelA h (some i) || ltK false (some k) nd.key) = true
      · rw [if_pos g1] at hw
        cases hlo : nd.lo with
        | none =>
          simp only [hlo] at hw
          obtain rfl : h.set i { nd with lo := some h.length } ++
              [⟨some k, some v, i, none, none⟩] = h2 := Option.some.inj hw
          exact link_alloc hh hc hs k v rfl (Or.inl ⟨rfl, rfl⟩)
        | some c =>
          simp only [hlo] at hw
          exact ih h c k v h2 hc hs hw
      · rw [if_neg g1] at hw
        by_cases g2 : ltK false nd.key (some k) = true
        · rw [if_pos g2] at hw
          cases hhi : nd.hi with
          | none =>
            simp only [hhi] at hw
            obtain rfl : h.set i { nd with hi := some h.length } ++
                [⟨some k, some v, i, none, none⟩] = h2 := Option.some.inj hw
            exact link_alloc hh hc hs k v rfl (Or.inr ⟨rfl, rfl⟩)
          | some c =>
            simp only [hhi] at hw
            exact ih h c k v h2 hc hs hw
        · rw [if_neg g2] at hw
          obtain rfl : h.set i { nd with value := some v } = h2 :=
            Option.some.inj hw
          exact link_set_value hh hc hs v

/-- Updating a cell in place while keeping its `parent` and keeping or
emptying each child slot preserves index closure and the linkage
invariant; the `Delete` of a leaf (whose promoted slot is empty) only
clears the parent's slot and is an instance. -/
lemma link_shrink {h : Heap} {p : Nat} {pnd pnd2 : ANode} (hp : h[p]? = some pnd)
    (hc : closedH h) (hs : strongLink h)
    (hpar : pnd2.parent = pnd.parent)
    (hlo : pnd2.lo = none ∨ pnd2.lo = pnd.lo)
    (hhi : pnd2.hi = none ∨ pnd2.hi = pnd.hi) :
    closedH (h.set p pnd2) ∧ strongLink (h.set p pnd2) := by
  have hplen : p < h.length := lt_length_of_getElem? hp
  have hget : ∀ j, (h.set p pnd2)[j]? = if j = p then some pnd2 else h[j]? := by
    intro j
    rw [List.getElem?_set]
    by_cases h1 : p = j
    · subst h1
      simp [hplen]
    · rw [if_neg h1, if_neg (fun hcon => h1 hcon.symm)]
  have hlen : (h.set p pnd2).length = h.length := by
    simp
  have hchild : ∀ c : Nat, (pnd2.lo = some c ∨ pnd2.hi = some c) →
      (pnd.lo = some c ∨ pnd.hi = some c) := by
    intro c hcc
    rcases hcc with hcc | hcc
    · rcases hlo with he | he
      · rw [he] at hcc
        cases hcc
      · rw [he] at hcc
        exact Or.inl hcc
    · rcases hhi with he | he
      · rw [he] at hcc
        cases hcc
      · rw [he] at hcc
        exact Or.inr hcc
  constructor
  · intro j md hmd
    rw [hget j] at hmd
    rw [hlen]
    by_cases h1 : j = p
    · rw [if_pos h1] at hmd
      obtain rfl : pnd2 = md := Option.some.inj hmd
      obtain ⟨p1, p2, p3⟩ := hc p pnd hp
      refine ⟨by rw [hpar]; exact p1, ?_, ?_⟩
      · intro c hcc
        rcases hchild c (Or.inl hcc) with h2 | h2
        · exact p2 c h2
        · exact p3 c h2
      · intro c hcc
        rcases hchild c (Or.inr hcc) with h2 | h2
        · exact p2 c h2
        · exact p3 c h2
    · rw [if_neg h1] at hmd
      exact hc j md hmd
  · intro j c md hmd hor
    rw [hget j] at hmd
    by_cases h1 : j = p
    · rw [if_pos h1] at hmd
      obtain rfl : pnd2 = md := Option.some.inj hmd
      obtain ⟨cnd, hcnd, hpar2⟩ := hs p c pnd hp (hchild c hor)
      by_cases hcp : c = p
      · refine ⟨pnd2, ?_, ?_⟩
        · rw [hget c, if_pos hcp]
        · have hnd : pnd = cnd := by
            rw [hcp, hp] at hcnd
            exact Option.some.inj hcnd
          rw [hpar, hnd, hpar2]
          exact h1.symm
      · refine ⟨cnd, ?_, hpar2.trans h1.symm⟩
        rw [hget c, if_neg hcp]
        exact hcnd
    · rw [if_neg h1] at hmd
      obtain ⟨cnd, hcnd, hpar2⟩ := hs j c md hmd hor
      by_cases hcp : c = p
      · refine ⟨pnd2, ?_, ?_⟩
        · rw [hget c, if_pos hcp]
        · have hnd : pnd = cnd := by
            rw [hcp, hp] at hcnd
            exact Option.some.inj hcnd
          rw [hpar, hnd]
          exact hpar2
      · refine ⟨cnd, ?_, hpar2⟩
        rw [hget c, if_neg hcp]
        exact hcnd

/-- Claim C1 amended: `Insert` keeps the parent/child linkage mutually
consistent (it preserves the invariant `strongLink`, together with index
closure), and so does `Delete` when the slot it promotes is empty (the
second conjunct: deleting a properly attached leaf only clears the
parent's slot); but `Delete` on a node with a promoted non-nil child does
not update that child's `Parent`, which is left pointing at the detached
node while the parent's slot now holds the child — the linkage invariant
fails at the parent after such a delete.  The third and fourth conjuncts
state this for the `Child[hi] == nil` and `Child[lo] == nil` splice cases
of the source. -/
theorem claim_C1_amended :
    (∀ (fuel : Nat) (h : Heap) (i : Nat) (k v : Int) (h2 : Heap),
      closedH h → strongLink h → aInsert fuel h i k v = some h2 →
      closedH h2 ∧ strongLink h2) ∧
    (∀ (fuel : Nat) (h : Heap) (i : Nat) (nd pnd : ANode),
      h[i]? = some nd → nd.parent ≠ i → h[nd.parent]? = some pnd →
      nd.hi = none → nd.lo = none → (pnd.lo = some i ∨ pnd.hi = some i) →
      closedH h → strongLink h →
      ∃ h2, aDelete (fuel + 1) h (some i) = .ok h2 ∧
        closedH h2 ∧ strongLink h2) ∧
    (∀ (fuel : Nat) (h : Heap) (i c : Nat) (nd pnd cnd : ANode),
      h[i]? = some nd → nd.parent ≠ i → h[nd.parent]? = some pnd →
      nd.hi = none → nd.lo = some c → h[c]? = some cnd → cnd.parent = i →
      c ≠ nd.parent → whichA h i = 0 →
      aDelete (fuel + 1) h (some i) =
        .ok (h.set nd.parent { pnd with lo := some c }) ∧
      linkOKat (h.set nd.parent { pnd with lo := some c }) nd.parent = false) ∧
    (∀ (fuel : Nat) (h : Heap) (i c : Nat) (nd pnd cnd : ANode),
      h[i]? = some nd → nd.parent ≠ i → h[nd.parent]? = some pnd →
      nd.hi = some c → nd.lo = none → h[c]? = some cnd → cnd.parent = i →
      c ≠ nd.parent → whichA h i = 0 →
      aDelete (fuel + 1) h (some i) =
        .ok (h.set nd.parent { pnd with lo := some c }) ∧
      linkOKat (h.set nd.parent { pnd with lo := some c }) nd.parent = false) := by
  refine ⟨fun fuel => aInsert_link fuel, ?_, ?_, ?_⟩
  · intro fuel h i nd pnd hnd hp hpnd hhi hlo hatt hc hs
    have hsent : isSentinelA h (some i) = false := by
      simp [isSentinelA, hnd, hp]
    by_cases hpl : pnd.lo = some i
    · have hw : whichA h i = 0 := by
        unfold whichA
        simp only [hnd, hpnd]
        rw [if_pos hpl]
      obtain ⟨hc2, hs2⟩ : closedH (h.set nd.parent { pnd with lo := none }) ∧
          strongLink (h.set nd.parent { pnd with lo := none }) :=
        link_shrink hpnd hc hs rfl (Or.inl rfl) (Or.inr rfl)
      refine ⟨h.set nd.parent { pnd with lo := none }, ?_, hc2, hs2⟩
      unfold aDelete
      rw [hsent]
      simp only [Bool.false_eq_true, if_false, hnd]
      rw [if_pos hhi, hlo, hw]
      unfold setChildAt
      rw [hpnd]
      simp
    · have hph : pnd.hi = some i := by
        rcases hatt with hatt | hatt
        · exact absurd hatt hpl
        · exact hatt
      have hw : whichA h i = 1 := by
        unfold whichA
        simp only [hnd, hpnd]
        rw [if_neg hpl, if_pos hph]
      obtain ⟨hc2, hs2⟩ : closedH (h.set nd.parent { pnd with hi := none }) ∧
          strongLink (h.set nd.parent { pnd with hi := none }) :=
        link_shrink hpnd hc hs rfl (Or.inr rfl) (Or.inl rfl)
      refine ⟨h.set nd.parent { pnd with hi := none }, ?_, hc2, hs2⟩
      unfold aDelete
      rw [hsent]
      simp only [Bool.false_eq_true, if_false, hnd]
      rw [if_pos hhi, hlo, hw]
      unfold setChildAt
      rw [hpnd]
      simp
  · intro fuel h i c nd pnd cnd hnd hp hpnd hhi hlo hcnd hpar hcp hw0
    have hsent : isSentinelA h (some i) = false := by
      simp [isSentinelA, hnd, hp]
    have hset : setChildAt h nd.parent (whichA h i) nd.lo =
        some (h.set nd.parent { pnd with lo := some c }) := by
      rw [hw0, hlo]
      unfold setChildAt
      rw [hpnd]
      simp
    have hdel : aDelete (fuel + 1) h (some i) =
        .ok (h.set nd.parent { pnd with lo := some c }) := by
      unfold aDelete
      rw [hsent]
      simp only [Bool.false_eq_true, if_false, hnd]
      rw [if_pos hhi, hset]
    have hplen : nd.parent < h.length := lt_length_of_getElem? hpnd
    have hgetp : (h.set nd.parent { pnd with lo := some c })[nd.parent]? =
        some { pnd with lo := some c } := by
      rw [List.getElem?_set]
      simp [hplen]
    have hgetc : (h.set nd.parent { pnd with lo := some c })[c]? = some cnd := by
      rw [List.getElem?_set, if_neg (fun hcon => hcp hcon.symm)]
      exact hcnd
    have hne : (cnd.parent == nd.parent) = false := by
      rw [hpar]
      exact beq_eq_false_iff_ne.mpr (fun hcon => hp hcon.symm)
    refine ⟨hdel, ?_⟩
    unfold linkOKat
    rw [hgetp]
    simp [hgetc, hne]
  · intro fuel h i c nd pnd cnd hnd hp hpnd hhi hlo hcnd hpar hcp hw0
    have hsent : isSentinelA h (some i) = false := by
      simp [isSentinelA, hnd, hp]
    have hset : setChildAt h nd.parent (whichA h i) nd.hi =
        some (h.set nd.parent { pnd with lo := some c }) := by
      rw [hw0, hhi]
      unfold setChildAt
      rw [hpnd]
      simp
    have hhine : ¬ nd.hi = none := by
      rw [hhi]
      simp
    have hdel : aDelete (fuel + 1) h (some i) =
        .ok (h.set nd.parent { pnd with lo := some c }) := by
      unfold aDelete
      rw [hsent]
      simp only [Bool.false_eq_true, if_false, hnd]
      rw [if_neg hhine, if_pos hlo, hset]
    have hplen : nd.parent < h.length := lt_length_of_getElem? hpnd
    have hgetp : (h.set nd.parent { pnd with lo := some c })[nd.parent]? =
        some { pnd with lo := some c } := by
      rw [List.getElem?_set]
      simp [hplen]
    have hgetc : (h.set nd.parent { pnd with lo := some c })[c]? = some cnd := by
      rw [List.getElem?_set, if_neg (fun hcon => hcp hcon.symm)]
      exact hcnd
    have hne : (cnd.parent == nd.parent) = false := by
      rw [hpar]
      exact beq_eq_false_iff_ne.mpr (fun hcon => hp hcon.symm)
    refine ⟨hdel, ?_⟩
    unfold linkOKat
    rw [hgetp]
    simp [hgetc, hne]

/-- A one-insert heap for the positive (Insert) half of the amended C1. -/
def c1w : Heap := (aInsert 2 newBasic 0 5 7).getD []

/-- Insertion order `3, 1, 2`: the cell for key 1 (index 2) has a `hi`
child only. -/
def c1HeapB : Heap := (aInsertList newBasic [(3, -3), (1, -1), (2, -2)]).getD []

/-- Witness for the amended C1: the Insert half on a concrete one-insert
heap; a leaf delete (the key-1 leaf of `c2Heap`) that keeps the linkage
invariant; and both delete splice cases on concrete three-node trees, each
leaving the promoted child's `parent` pointing at the detached cell. -/
theorem claim_C1_amended_witness :
    (closedH c1w ∧ strongLink c1w) ∧
    (∃ h2, aDelete 9 c2Heap (some 2) = .ok h2 ∧ closedH h2 ∧ strongLink h2) ∧
    (aDelete 9 c1Heap (some 2) =
        .ok (c1Heap.set 1 ⟨some 3, some (-3), 0, some 3, none⟩) ∧
      linkOKat (c1Heap.set 1 ⟨some 3, some (-3), 0, some 3, none⟩) 1 = false) ∧
    (aDelete 9 c1HeapB (some 2) =
        .ok (c1HeapB.set 1 ⟨some 3, some (-3), 0, some 3, none⟩) ∧
      linkOKat (c1HeapB.set 1 ⟨some 3, some (-3), 0, some 3, none⟩) 1 = false) :=
  ⟨claim_C1_amended.1 2 newBasic 0 5 7 c1w
      ((closedH_iff newBasic).mpr (by decide))
      ((strongLink_iff newBasic).mpr (by decide)) (by decide),
   claim_C1_amended.2.1 8 c2Heap 2
      ⟨some 1, some (-1), 1, none, none⟩
      ⟨some 3, some (-3), 0, some 2, none⟩
      (by decide) (by decide) (by decide) (by decide) (by decide)
      (Or.inl (by decide))
      ((closedH_iff c2Heap).mpr (by decide))
      ((strongLink_iff c2Heap).mpr (by decide)),
   claim_C1_amended.2.2.1 8 c1Heap 2 3
      ⟨some 1, some (-1), 1, some 3, none⟩
      ⟨some 3, some (-3), 0, some 2, none⟩
      ⟨some 0, some 0, 2, none, none⟩
      (by decide) (by decide) (by decide) (by decide) (by decide) (by decide)
      (by decide) (by decide) (by decide),
   claim_C1_amended.2.2.2 8 c1HeapB 2 3
      ⟨some 1, some (-1), 1, none, some 3⟩
      ⟨some 3, some (-3), 0, some 2, none⟩
      ⟨some 2, some (-2), 2, none, none⟩
      (by decide) (by decide) (by decide) (by decide) (by decide) (by decide)
      (by decide) (by decide) (by decide)⟩

/-! ## Part 3: zipper embedding of `next` / `Next` (parent ascent)

For a node inside an insert-built tree (where, by the preserved linkage
invariant of `claim_C1_amended`, `Parent` fields and child slots agree),
the chain of `Parent` pointers from the node up to the sentinel is exactly
the path of ancestors, each remembering on which side the node hangs and
what its other subtree is.  A node handle is therefore a zipper: the
focused node plus that chain.  `next`'s descent and its `which()`-driven
parent ascent translate frame by frame. -/

/-- One `Parent` step: the focus is the `s`-side child (`true` = `hi`) of a
node with key `k`, value `v`, whose other child slot holds `sib`. -/
structure ZFrame where
  s : Bool
  k : Int
  v : Int
  sib : BTree
deriving DecidableEq, Repr

/-- The `Parent` chain from a node up to (excluding) the sentinel,
innermost frame first; `[]` means the focus is the root (the sentinel's
`lo` child, whose `which()` is `lo`). -/
abbrev ZCtx := List ZFrame

/-- A node handle: the focused node's fields plus its `Parent` chain. -/
structure ZLoc where
  ctx : ZCtx
  k : Int
  v : Int
  lo : BTree
  hi : BTree
deriving DecidableEq, Repr

/-- Reattach a focus to its immediate parent. -/
def plug1 (t : BTree) (f : ZFrame) : BTree :=
  if f.s then .node f.k f.v f.sib t else .node f.k f.v t f.sib

/-- Reattach a focus along a whole chain, innermost first. -/
def plugC : BTree → ZCtx → BTree
  | t, [] => t
  | t, f :: rest => plugC (plug1 t f) rest

/-- The focused node as a subtree. -/
def ZLoc.tree (l : ZLoc) : BTree := .node l.k l.v l.lo l.hi

/-- Source `Get` returning the found node as a handle: same descent as
`Get`, recording each step as a frame. -/
def getLoc (k : Int) : ZCtx → BTree → Option ZLoc
  | _, .nil => none
  | ctx, .node nk nv nlo nhi =>
    if k < nk then getLoc k (⟨false, nk, nv, nhi⟩ :: ctx) nlo
    else if nk < k then getLoc k (⟨true, nk, nv, nlo⟩ :: ctx) nhi
    else some ⟨ctx, nk, nv, nlo, nhi⟩

/-- The descent branch of source `next` with `d = hi`: from a non-nil
subtree, follow `Child[lo]` while it is non-nil; the resulting node (with
its accumulated chain) is returned. -/
def llWalk : ZCtx → BTree → Option ZLoc
  | _, .nil => none
  | ctx, .node k v lo hi =>
    match lo with
    | .nil => some ⟨ctx, k, v, .nil, hi⟩
    | .node lk lv llo lhi =>
      llWalk (⟨false, k, v, hi⟩ :: ctx) (.node lk lv llo lhi)

/-- The ascent branch of source `next` with `d = hi`: `cur` walks `Parent`
links while `cur.which() == hi` (the frame says the focus is a `hi` child);
at the first `lo`-side frame the parent is returned; an exhausted chain
means `cur` is the root and `cur.Parent` is the sentinel — absence. -/
def upHi : BTree → ZCtx → Option ZLoc
  | _, [] => none
  | t, f :: rest =>
    if f.s then upHi (plug1 t f) rest
    else some ⟨rest, f.k, f.v, t, f.sib⟩

/-- Source `Next` (`next(hi)`): if `Child[hi]` is non-nil, the leftmost
node of that subtree, reached without any reference to the root; otherwise
ascend `Parent` links as in `upHi`. -/
def nextLoc (l : ZLoc) : Option ZLoc :=
  match l.hi with
  | .nil => upHi l.tree l.ctx
  | .node k v lo hi => llWalk (⟨true, l.k, l.v, l.lo⟩ :: l.ctx) (.node k v lo hi)

/-- The key of an optional handle. -/
def locKey? : Option ZLoc → Option Int
  | none => none
  | some l => some l.k

/-- The key/value pairs appearing strictly after the focus subtree in the
in-order traversal of the reattached tree. -/
def ctxAfter : ZCtx → List (Int × Int)
  | [] => []
  | f :: rest =>
    if f.s then ctxAfter rest
    else ((f.k, f.v) :: f.sib.inorder) ++ ctxAfter rest

/-- The key/value pairs appearing strictly before the focus subtree. -/
def ctxBefore : ZCtx → List (Int × Int)
  | [] => []
  | f :: rest =>
    if f.s then ctxBefore rest ++ f.sib.inorder ++ [(f.k, f.v)]
    else ctxBefore rest

lemma inorder_plugC (ctx : ZCtx) (t : BTree) :
    (plugC t ctx).inorder = ctxBefore ctx ++ t.inorder ++ ctxAfter ctx := by
  induction ctx generalizing t with
  | nil => simp [plugC, ctxBefore, ctxAfter]
  | cons f rest ih =>
    by_cases hf : f.s
    · simp [plugC, plug1, hf, ih, ctxBefore, ctxAfter, BTree.inorder,
        List.append_assoc]
    · simp [plugC, plug1, hf, ih, ctxBefore, ctxAfter, BTree.inorder,
        List.append_assoc]

lemma upHi_key (t : BTree) (ctx : ZCtx) :
    locKey? (upHi t ctx) = ((ctxAfter ctx).head?).map Prod.fst := by
  induction ctx generalizing t with
  | nil => rfl
  | cons f rest ih =>
    by_cases hf : f.s
    · simp [upHi, hf, ctxAfter, ih]
    · simp [upHi, hf, ctxAfter, locKey?]

lemma inorder_ne_nil (k v : Int) (lo hi : BTree) :
    (BTree.node k v lo hi).inorder ≠ [] := by
  simp [BTree.inorder]

lemma llWalk_key (lo : BTree) :
    ∀ (ctx : ZCtx) (k v : Int) (hi : BTree),
    locKey? (llWalk ctx (.node k v lo hi)) =
      ((BTree.node k v lo hi).inorder.head?).map Prod.fst := by
  induction lo with
  | nil =>
    intro ctx k v hi
    simp [llWalk, locKey?, BTree.inorder]
  | node lk lv llo lhi ihlo ihhi =>
    intro ctx k v hi
    rw [show llWalk ctx (.node k v (.node lk lv llo lhi) hi) =
        llWalk (⟨false, k, v, hi⟩ :: ctx) (.node lk lv llo lhi) from rfl]
    rw [ihlo]
    have hne : (BTree.node lk lv llo lhi).inorder ≠ [] := inorder_ne_nil lk lv llo lhi
    rw [show (BTree.node k v (.node lk lv llo lhi) hi).inorder =
        (BTree.node lk lv llo lhi).inorder ++ (k, v) :: hi.inorder from by
      simp [BTree.inorder]]
    cases hc : (BTree.node lk lv llo lhi).inorder with
    | nil => exact absurd hc hne
    | cons a rest => simp

lemma nextLoc_key (l : ZLoc) :
    locKey? (nextLoc l) =
      ((l.hi.inorder ++ ctxAfter l.ctx).head?).map Prod.fst := by
  cases hhi : l.hi with
  | nil =>
    rw [show nextLoc l = upHi l.tree l.ctx from by rw [nextLoc, hhi]]
    rw [upHi_key]
    simp [BTree.inorder]
  | node k v lo hi =>
    rw [show nextLoc l = llWalk (⟨true, l.k, l.v, l.lo⟩ :: l.ctx) (.node k v lo hi)
        from by rw [nextLoc, hhi]]
    rw [llWalk_key]
    have hne : (BTree.node k v lo hi).inorder ≠ [] := inorder_ne_nil k v lo hi
    cases hc : (BTree.node k v lo hi).inorder with
    | nil => exact absurd hc hne
    | cons a rest => simp

lemma getLoc_plug {k : Int} :
    ∀ {t : BTree} {ctx : ZCtx} {l : ZLoc},
      getLoc k ctx t = some l → plugC l.tree l.ctx = plugC t ctx := by
  intro t
  induction t with
  | nil =>
    intro ctx l h
    simp [getLoc] at h
  | node nk nv nlo nhi ihlo ihhi =>
    intro ctx l h
    by_cases h1 : k < nk
    · have h2 := ihlo (by simpa [getLoc, h1] using h)
      simpa [plugC, plug1] using h2
    · by_cases h2 : nk < k
      · have h3 := ihhi (by simpa [getLoc, h1, h2] using h)
        simpa [plugC, plug1] using h3
      · have h3 : l = ⟨ctx, nk, nv, nlo, nhi⟩ := by
          simpa [getLoc, h1, h2] using h.symm
        subst h3
        rfl

lemma getLoc_key {k : Int} :
    ∀ {t : BTree} {ctx : ZCtx} {l : ZLoc}, getLoc k ctx t = some l → l.k = k := by
  intro t
  induction t with
  | nil =>
    intro ctx l h
    simp [getLoc] at h
  | node nk nv nlo nhi ihlo ihhi =>
    intro ctx l h
    by_cases h1 : k < nk
    · exact ihlo (by simpa [getLoc, h1] using h)
    · by_cases h2 : nk < k
      · exact ihhi (by simpa [getLoc, h1, h2] using h)
      · have h3 : l = ⟨ctx, nk, nv, nlo, nhi⟩ := by
          simpa [getLoc, h1, h2] using h.symm
        subst h3
        show nk = k
        exact le_antisymm (le_of_not_lt h1) (le_of_not_lt h2)

lemma getLoc_isSome {k : Int} :
    ∀ {t : BTree}, BTree.Ordered t → k ∈ t.keysList →
      ∀ ctx, (getLoc k ctx t).isSome = true := by
  intro t
  induction t with
  | nil =>
    intro _ hmem
    simp [BTree.keysList, BTree.inorder] at hmem
  | node nk nv nlo nhi ihlo ihhi =>
    intro ho hmem ctx
    cases ho with
    | node blo bhi olo ohi =>
      rw [BTree.keysList_node] at hmem
      rcases List.mem_append.1 hmem with hm | hm
      · have h1 : k < nk := blo k hm
        simpa [getLoc, h1] using ihlo olo hm _
      · rcases List.mem_cons.1 hm with rfl | hm2
        · simp [getLoc, lt_irrefl]
        · have h1 : nk < k := bhi k hm2
          have h2 : ¬ k < nk := lt_asymm h1
          simpa [getLoc, h1, h2] using ihhi ohi hm2 _

lemma getElem?_rangeL (n m : Nat) :
    (rangeL n)[m]? = if m < n then some (Int.ofNat m) else none := by
  unfold rangeL
  rw [List.getElem?_map]
  by_cases h : m < n
  · rw [List.getElem?_eq_getElem (by simpa using h)]
    simp [List.getElem_range, h]
  · rw [List.getElem?_eq_none (by simpa using le_of_not_lt h)]
    simp [h]

lemma rangeL_decomp {n : Nat} {X Y : List Int} {i : Nat}
    (e : X ++ Int.ofNat i :: Y = rangeL n) :
    Y.head? = if i + 1 < n then some (Int.ofNat (i + 1)) else none := by
  have hXi : X.length = i := by
    have h1 : (X ++ Int.ofNat i :: Y)[X.length]? = some (Int.ofNat i) := by
      rw [List.getElem?_append, if_neg (lt_irrefl _), Nat.sub_self]
      simp
    rw [e, getElem?_rangeL] at h1
    by_cases h2 : X.length < n
    · rw [if_pos h2] at h1
      have h3 := Option.some.inj h1
      have h4 : (X.length : Int) = (i : Int) := h3
      omega
    · rw [if_neg h2] at h1
      cases h1
  have h3 : Y.head? = (X ++ Int.ofNat i :: Y)[X.length + 1]? := by
    rw [List.getElem?_append, if_neg (by omega)]
    have h4 : X.length + 1 - X.length = 1 := by omega
    rw [h4, List.getElem?_cons_succ]
    exact (List.head?_eq_getElem? Y).symm.symm ▸ rfl
  rw [e, getElem?_rangeL, hXi] at h3
  exact h3

/-- Claim C5: after inserting the key set `{0..63}` in any order, `Next()`
on the node holding key `i` returns the node holding key `i + 1` for
`i < 63` and absence for `i = 63`.  `nextLoc` is the translation of the
source `next(hi)`: it descends to the leftmost node of the `Hi` subtree
when one exists and otherwise ascends `Parent` frames while the node is a
`hi`-side child, never re-walking from the root. -/
theorem claim_C5 (ps : List (Int × Int)) (hp : (ps.map Prod.fst).Perm (rangeL 64))
    (i : Nat) (hi64 : i < 64) :
    ∃ l : ZLoc, getLoc (Int.ofNat i) [] (insertList .nil ps) = some l ∧
      locKey? (nextLoc l) =
        (if i + 1 < 64 then some (Int.ofNat (i + 1)) else none) := by
  have ho := ordered_insertList ps BTree.Ordered.nil
  have hkeys : (insertList .nil ps).keysList = rangeL 64 :=
    keysList_insertList_of_perm 64 ps hp
  have hmem : Int.ofNat i ∈ (insertList .nil ps).keysList := by
    rw [hkeys]
    exact List.mem_map.2 ⟨i, List.mem_range.2 hi64, rfl⟩
  obtain ⟨l, hl⟩ := Option.isSome_iff_exists.1 (getLoc_isSome ho hmem [])
  refine ⟨l, hl, ?_⟩
  have hk := getLoc_key hl
  have hplug := getLoc_plug hl
  have hdec : (insertList .nil ps).inorder =
      (ctxBefore l.ctx ++ l.lo.inorder) ++
        (l.k, l.v) :: (l.hi.inorder ++ ctxAfter l.ctx) := by
    have h1 : plugC l.tree l.ctx = insertList .nil ps := by
      simpa [plugC] using hplug
    rw [← h1, inorder_plugC]
    simp [ZLoc.tree, BTree.inorder, List.append_assoc]
  have hkeq : ((ctxBefore l.ctx ++ l.lo.inorder).map Prod.fst) ++
      Int.ofNat i :: ((l.hi.inorder ++ ctxAfter l.ctx).map Prod.fst) =
        rangeL 64 := by
    rw [← hkeys]
    unfold BTree.keysList
    rw [hdec]
    simp [hk]
  have hY := rangeL_decomp hkeq
  rw [nextLoc_key l]
  rw [List.head?_map] at hY
  exact hY

/-- Witness for C5 at the ascending insertion of `{0..63}` (value `-k`) and
the keys 5 (successor 6) and 63 (no successor). -/
theorem claim_C5_witness :
    (∃ l : ZLoc,
      getLoc 5 [] (insertList .nil ((rangeL 64).map (fun k => (k, -k)))) = some l ∧
      locKey? (nextLoc l) = some 6) ∧
    (∃ l : ZLoc,
      getLoc 63 [] (insertList .nil ((rangeL 64).map (fun k => (k, -k)))) = some l ∧
      locKey? (nextLoc l) = none) := by
  have hp : (((rangeL 64).map (fun k => (k, -k))).map Prod.fst).Perm (rangeL 64) := by
    have he : ((rangeL 64).map (fun k => (k, -k))).map Prod.fst = rangeL 64 := by
      decide
    rw [he]
  constructor
  · exact claim_C5 _ hp 5 (by decide)
  · exact claim_C5 _ hp 63 (by decide)
